import Mathlib

/-!
Verification of the simulacra job-creation core
(`src/simulacra/cluster/job_creation.py` and its driver scripts).

The Python functions are shallowly embedded as executable Lean
definitions.  Python values that can appear as a `Parameter.value` are
modelled by `PyVal`: atoms (numbers, `None`, …), strings, lists/tuples
(finite ordered sequences with a length), and generators (iterable but
without `__len__`).  Expandable sequences hold atomic elements.
Python dictionaries are modelled as association lists with Python's
insertion-order update semantics (`setKey`).
-/

set_option autoImplicit false

namespace Simulacra

/-- An atomic (non-iterable) Python value. -/
inductive PyAtom where
  | int (n : Int)
  | float (q : Rat)
  | none
deriving DecidableEq, Repr

/-- A Python value as classified by `expand_parameters`'s duck-typing test:
atoms have no `__iter__`; strings are iterable sized strings; `list`/`tuple`
are finite ordered non-string sequences; `gen` is iterable without `__len__`. -/
inductive PyVal where
  | atom (a : PyAtom)
  | str (s : String)
  | list (xs : List PyAtom)
  | tuple (xs : List PyAtom)
  | gen (xs : List PyAtom)
deriving DecidableEq, Repr

/-- `hasattr(value, '__iter__')`. -/
def hasIter : PyVal → Bool
  | .atom _ => false
  | .str _ => true
  | .list _ => true
  | .tuple _ => true
  | .gen _ => true

/-- `hasattr(value, '__len__')`. -/
def hasLen : PyVal → Bool
  | .atom _ => false
  | .str _ => true
  | .list _ => true
  | .tuple _ => true
  | .gen _ => false

/-- `isinstance(value, str)`. -/
def isStr : PyVal → Bool
  | .str _ => true
  | _ => false

/-- The elements of a finite ordered sequence value (used only when the
duck-typing test succeeds, i.e. on `list`/`tuple`). -/
def seqElems : PyVal → List PyVal
  | .list xs => xs.map PyVal.atom
  | .tuple xs => xs.map PyVal.atom
  | _ => []

/-- `class Parameter` from `job_creation.py`: a name, a value and an
`expandable` flag. -/
structure Param where
  name : String
  value : PyVal
  expandable : Bool
deriving DecidableEq, Repr

/-- The test on line 74 of `job_creation.py`:
`par.expandable and hasattr(par.value, '__iter__') and not isinstance(par.value, str) and hasattr(par.value, '__len__')`. -/
def isExpanded (p : Param) : Bool :=
  p.expandable && hasIter p.value && !isStr p.value && hasLen p.value

/-- A Python dict, as an insertion-ordered association list. -/
abbrev Dict := List (String × PyVal)

/-- `d[k] = v` on a Python dict: replace the value of an existing key in
place, otherwise append the new key at the end. -/
def setKey {α : Type} : List (String × α) → String → α → List (String × α)
  | [], k, v => [(k, v)]
  | (k', v') :: rest, k, v =>
      if k' = k then (k, v) :: rest else (k', v') :: setKey rest k v

/-- `d[k]` lookup on a Python dict (first matching key). -/
def getVal {α : Type} : List (String × α) → String → Option α
  | [], _ => Option.none
  | (k', v') :: rest, k => if k' = k then some v' else getVal rest k

/-- `[deepcopy(d) for d in dicts for _ in range(k)]` (line 75): each dict,
in order, is replaced by `k` consecutive copies.  In this pure model a deep
copy is the value itself. -/
def replicateEach {α : Type} (k : Nat) : List α → List α
  | [] => []
  | d :: rest => List.replicate k d ++ replicateEach k rest

/-- The loop `for d, v in zip(dicts, itertools.cycle(par.value)): d[par.name] = v`
(lines 76-77): the dict at position `i` receives element `i % len(par.value)`. -/
def assignCycle (name : String) (elems : List PyVal) : Nat → List Dict → List Dict
  | _, [] => []
  | i, d :: rest =>
      setKey d name (elems.getD (i % elems.length) (PyVal.atom PyAtom.none))
        :: assignCycle name elems (i + 1) rest

/-- One iteration of the `for par in parameters` loop of `expand_parameters`
(lines 72-80). -/
def expandStep (dicts : List Dict) (p : Param) : List Dict :=
  if isExpanded p then
    assignCycle p.name (seqElems p.value) 0
      (replicateEach (seqElems p.value).length dicts)
  else
    dicts.map (fun d => setKey d p.name p.value)

/-- `expand_parameters` (lines 53-82 of `job_creation.py`). -/
def expand_parameters (ps : List Param) : List Dict :=
  ps.foldl expandStep [[]]

/-- The lengths of the value sequences of the expandable parameters, in
processing order. -/
def expandSizes (ps : List Param) : List Nat :=
  (ps.filter isExpanded).map (fun p => (seqElems p.value).length)

/-- The last Parameter in the list carrying the given name, i.e. the one
whose write to that dict key wins in `expand_parameters`. -/
def lastWith : List Param → String → Option Param
  | [], _ => Option.none
  | q :: rest, n =>
      match lastWith rest n with
      | some p => some p
      | Option.none => if q.name = n then some q else Option.none

/-- The binding a Parameter `p` leaves in a produced assignment map: its own
value when it is not expanded, one of its sequence elements when it is. -/
def BindsFrom (p : Param) (d : Dict) : Prop :=
  (isExpanded p = true → ∃ v ∈ seqElems p.value, getVal d p.name = some v)
  ∧ (isExpanded p = false → getVal d p.name = some p.value)

/-- Concrete duplicate-name input and its later occurrence. -/
def psW9 : List Param := [⟨"x", .atom (.int 1), false⟩, ⟨"x", .atom (.int 2), false⟩]

def pW9 : Param := ⟨"x", .atom (.int 2), false⟩

/-- Concrete non-expandable input used to instantiate hypotheses. -/
def psW1 : List Param := [⟨"a", .atom (.int 1), false⟩, ⟨"b", .str "xy", false⟩]

/-- The two-expandable-parameter scenario from the spec (§8):
`a` over `[1,2]`, then `c` over `[10,20,30]`. -/
def psC2 : List Param :=
  [⟨"a", .list [.int 1, .int 2], true⟩,
   ⟨"c", .list [.int 10, .int 20, .int 30], true⟩]

/-- A Python object as seen by `deepcopy`: an identity (`id(obj)`) plus an
atomic payload.  The pure model above erases identities; this instrumented
model tracks them to settle aliasing questions. -/
structure Obj where
  oid : Nat
  val : Int
deriving DecidableEq, Repr

/-- A Python dict object: its own identity plus its insertion-ordered
entries, whose values are identity-carrying objects. -/
structure IDict where
  did : Nat
  entries : List (String × Obj)
deriving DecidableEq, Repr

/-- A Parameter in the identity-instrumented model: `valueObj` is the value
object itself; `elems` holds the element objects when the value passes the
finite-ordered-non-string-sequence test of line 74, and is `none` otherwise. -/
structure IParam where
  name : String
  valueObj : Obj
  elems : Option (List Obj)
  expandable : Bool
deriving DecidableEq, Repr

/-- `deepcopy` of the entries of a dict: each value object is re-allocated
with a fresh identity, memoised per call (`memo` maps old to new identities)
so that sharing inside one dict is preserved by the copy.  Returns the
copied entries, the next fresh identity, and the memo. -/
def copyEntries : Nat → List (Nat × Nat) → List (String × Obj) →
    List (String × Obj) × Nat × List (Nat × Nat)
  | ctr, memo, [] => ([], ctr, memo)
  | ctr, memo, (k, o) :: rest =>
      match List.lookup o.oid memo with
      | some nid =>
          let r := copyEntries ctr memo rest
          ((k, ⟨nid, o.val⟩) :: r.1, r.2)
      | Option.none =>
          let r := copyEntries (ctr + 1) ((o.oid, ctr) :: memo) rest
          ((k, ⟨ctr, o.val⟩) :: r.1, r.2)

/-- `deepcopy(d)` on line 75: a fresh dict identity and freshly re-allocated
value objects. -/
def deepcopyDict (ctr : Nat) (d : IDict) : IDict × Nat :=
  let r := copyEntries (ctr + 1) [] d.entries
  (⟨ctr, r.1⟩, r.2.1)

/-- `k` successive deep copies of one dict. -/
def copiesOf : Nat → Nat → IDict → List IDict × Nat
  | 0, ctr, _ => ([], ctr)
  | k + 1, ctr, d =>
      let c := deepcopyDict ctr d
      let r := copiesOf k c.2 d
      (c.1 :: r.1, r.2)

/-- `[deepcopy(d) for d in dicts for _ in range(k)]` (line 75), with
identities threaded through a fresh-identity counter. -/
def replicateCopy (k : Nat) : Nat → List IDict → List IDict × Nat
  | ctr, [] => ([], ctr)
  | ctr, d :: rest =>
      let c := copiesOf k ctr d
      let r := replicateCopy k c.2 rest
      (c.1 ++ r.1, r.2)

/-- The cyclic assignment loop (lines 76-77) with identities: each dict is
mutated in place (its identity is preserved) and the assigned value is the
sequence element object itself, so its identity is shared with the
Parameter's sequence and with every other dict receiving the same element. -/
def assignCycleI (name : String) (elems : List Obj) : Nat → List IDict → List IDict
  | _, [] => []
  | i, d :: rest =>
      ⟨d.did, setKey d.entries name (elems.getD (i % elems.length) ⟨0, 0⟩)⟩
        :: assignCycleI name elems (i + 1) rest

/-- One iteration of the `expand_parameters` loop (lines 72-80) with object
identities; the broadcast branch stores the Parameter's value object itself
in every dict. -/
def expandStepI (st : List IDict × Nat) (p : IParam) : List IDict × Nat :=
  match p.expandable, p.elems with
  | true, some elems =>
      let r := replicateCopy elems.length st.2 st.1
      (assignCycleI p.name elems 0 r.1, r.2)
  | _, _ =>
      (st.1.map (fun d => ⟨d.did, setKey d.entries p.name p.valueObj⟩), st.2)

/-- `expand_parameters` instrumented with Python object identities; `ctr` is
the first unused identity (the input Parameters' objects are expected to use
smaller ones, though dict-identity distinctness holds regardless). -/
def expand_parameters_ids (ps : List IParam) (ctr : Nat) : List IDict × Nat :=
  ps.foldl expandStepI ([⟨ctr, []⟩], ctr + 1)

/-- In-place mutation of the object with identity `target`: every dict entry
referring to that object observes the new payload. -/
def mutateVal (dicts : List IDict) (target : Nat) (newVal : Int) : List IDict :=
  dicts.map (fun d =>
    ⟨d.did, d.entries.map (fun e =>
      if e.2.oid = target then (e.1, ⟨target, newVal⟩) else e)⟩)

/-- Rebinding key `k` of the dict object with identity `target` to `v`
(the statement `d[k] = v` executed on that one dict). -/
def rebindKey (dicts : List IDict) (target : Nat) (k : String) (v : Obj) : List IDict :=
  dicts.map (fun d => if d.did = target then ⟨d.did, setKey d.entries k v⟩ else d)

/-- Two dicts share a mutable value object under a common key when the
objects bound to that key have the same identity. -/
def sharesValue (d1 d2 : IDict) : Bool :=
  d1.entries.any (fun e =>
    match getVal d2.entries e.1 with
    | some o2 => e.2.oid = o2.oid
    | Option.none => false)

/-- The invariant carried through the instrumented loop: every dict identity
in the working list is below the fresh counter, and they are pairwise
distinct. -/
def IdsOK (st : List IDict × Nat) : Prop :=
  (∀ d ∈ st.1, d.did < st.2) ∧ (st.1.map IDict.did).Pairwise (· ≠ ·)

/-- Concrete aliasing scenario: two expandable Parameters, the second with a
single-element sequence, so its lone element object is cycled into every
replica. -/
def psC3 : List IParam :=
  [⟨"x", ⟨10, 0⟩, some [⟨11, 1⟩, ⟨12, 2⟩], true⟩,
   ⟨"a", ⟨20, 0⟩, some [⟨21, 7⟩], true⟩]

/-- The loop body of `save_specifications` (lines 218-225 of
`job_creation.py`): `save` models `spec.save(target_dir = job_dir/inputs)`,
which either writes that Specification's file or raises.  The loop has no
exception handling, so a raised exception propagates immediately: the first
component collects the Specifications whose files were written (in order)
and the second the propagated exception, if any. -/
def save_specifications {σ ε : Type} (save : σ → Except ε Unit) :
    List σ → List σ × Option ε
  | [] => ([], Option.none)
  | s :: rest =>
      match save s with
      | Except.error e => ([], some e)
      | Except.ok _ =>
          let r := save_specifications save rest
          (s :: r.1, r.2)

/-- A concrete saver that raises exactly on Specification 2. -/
def saveW : Nat → Except Nat Unit := fun n => if n = 2 then Except.error 2 else Except.ok ()

/-- The observable behaviour of `specification_check` (lines 257-268): the
sample displayed (`specifications[0:check]`), the reported total, whether
the yes/no question was asked, and whether `abort_job_creation` was
reached. -/
structure CheckOutcome (α : Type) where
  shown : List α
  reported_total : Nat
  asked : Bool
  aborted : Bool
deriving DecidableEq, Repr

/-- `specification_check` (lines 257-268): displays the first `check`
Specifications (Python's slice `[0:check]`, i.e. `take`), reports the total
count, always asks the confirmation question, and runs
`abort_job_creation` exactly when the answer is negative. -/
def specification_check {α : Type} (specifications : List α) (check : Nat)
    (answer : Bool) : CheckOutcome α :=
  ⟨specifications.take check, specifications.length, true, !answer⟩

/-- A filesystem mutation performed by the job-creation pipeline. -/
inductive FsAction where
  | rmtree (path : String)
  | mkdir (path : String)
  | writeFile (path : String)
deriving DecidableEq, Repr

/-- The directory creations of `create_job_subdirs` (lines 208-215). -/
def create_job_subdirs_actions (job_dir : String) (subdirs : List String) :
    List FsAction :=
  FsAction.mkdir job_dir :: subdirs.map (fun s => FsAction.mkdir (job_dir ++ "/" ++ s))

/-- The filesystem actions after the point of no return in the job-creation
driver (`create_job_test.py`, lines 139-156): remove any existing job
directory, recreate the layout, save every Specification file, and write
the two manifests, the job metadata record and the submit file. -/
def point_of_no_return_actions (job_dir : String) (specFiles : List String) :
    List FsAction :=
  FsAction.rmtree job_dir
    :: create_job_subdirs_actions job_dir ["inputs", "outputs", "logs"]
    ++ specFiles.map (fun f => FsAction.writeFile (job_dir ++ "/inputs/" ++ f))
    ++ [FsAction.writeFile (job_dir ++ "/specifications.txt"),
        FsAction.writeFile (job_dir ++ "/parameters.txt"),
        FsAction.writeFile (job_dir ++ "/info.pkl"),
        FsAction.writeFile (job_dir ++ "/submit")]

/-- The interactive answers driving one run of the job-creation script. -/
structure PipelineAnswers where
  collision : Bool
  overwrite_flag : Bool
  overwrite_answer : Bool
  spec_check_answer : Bool
  submit_check_answer : Bool
deriving DecidableEq, Repr

/-- The job-creation pipeline of `create_job_test.py` (`__main__`), reduced
to its filesystem-action trace.  Everything before the gates (argument
parsing, parameter prompting, expansion, Specification construction)
performs no filesystem mutation.  The second gate, `submit_check`, has no
source under `src`; it is modelled from the spec's Confirmation Gate
contract (§4.3) as a yes/no oracle whose negative answer aborts.  A
negative answer at any gate runs `abort_job_creation`, which exits the
script strictly before the point of no return. -/
def create_job_pipeline {α : Type} (job_dir : String) (specifications : List α)
    (specFiles : List String) (a : PipelineAnswers) : List FsAction :=
  if a.collision && !a.overwrite_flag && !a.overwrite_answer then []
  else if (specification_check specifications 3 a.spec_check_answer).aborted then []
  else if !a.submit_check_answer then []
  else point_of_no_return_actions job_dir specFiles

/-- A pipeline run whose Confirmation Gate receives a negative answer. -/
def answersW : PipelineAnswers := ⟨false, false, false, false, true⟩

/-- The outcome of `JobProcessor.load(path)` in the obtain step of
`process_job_test.py` (lines 20-23): the persisted processor when the file
exists and deserializes, `FileNotFoundError` when it is absent, or any
other deserialization exception. -/
inductive LoadOutcome (π ε : Type) where
  | found (p : π)
  | fileNotFound
  | otherError (e : ε)
deriving DecidableEq, Repr

/-- The obtain step of `process_job_test.py` (lines 20-23):
`try: jp = load(...)` with `except FileNotFoundError: jp = fresh`.  Only
file-not-found is recovered by constructing the fresh processor; any other
failure propagates. -/
def obtain_job_processor {π ε : Type} (load : LoadOutcome π ε) (fresh : π) :
    Except ε π :=
  match load with
  | .found p => Except.ok p
  | .fileNotFound => Except.ok fresh
  | .otherError e => Except.error e

/-- The fixed metadata path `job_dir/info.pkl` used by lines 273 and 280. -/
def job_info_path (job_dir : String) : String := job_dir ++ "/info.pkl"

/-- `write_job_info_to_file` (lines 271-275): pickle the record to
`job_dir/info.pkl`.  The filesystem is a path-indexed store; since
`pickle.load` of a `pickle.dump` reconstructs an equal record, a file's
content is modelled by the stored record itself. -/
def write_job_info_to_file {α : Type} (job_info : α) (job_dir : String)
    (fs : List (String × α)) : List (String × α) :=
  setKey fs (job_info_path job_dir) job_info

/-- `load_job_info_from_file` (lines 278-282): unpickle the record stored
at `job_dir/info.pkl`. -/
def load_job_info_from_file {α : Type} (job_dir : String)
    (fs : List (String × α)) : Option α :=
  getVal fs (job_info_path job_dir)

theorem length_assignCycle (name : String) (elems : List PyVal) :
    ∀ (i : Nat) (ds : List Dict), (assignCycle name elems i ds).length = ds.length := by
  intro i ds
  induction ds generalizing i with
  | nil => rfl
  | cons d rest ih => simp [assignCycle, ih]

theorem length_replicateEach {α : Type} (k : Nat) :
    ∀ ds : List α, (replicateEach k ds).length = ds.length * k := by
  intro ds
  induction ds with
  | nil => simp [replicateEach]
  | cons d rest ih =>
      simp only [replicateEach, List.length_append, List.length_replicate, ih,
        List.length_cons]
      ring

theorem length_expandStep (dicts : List Dict) (p : Param) :
    (expandStep dicts p).length =
      if isExpanded p then dicts.length * (seqElems p.value).length else dicts.length := by
  unfold expandStep
  by_cases h : isExpanded p
  · simp [h, length_assignCycle, length_replicateEach]
  · simp [h]

theorem length_foldl_expandStep (ps : List Param) :
    ∀ dicts : List Dict,
      (ps.foldl expandStep dicts).length = dicts.length * (expandSizes ps).prod := by
  induction ps with
  | nil => intro dicts; simp [expandSizes]
  | cons p rest ih =>
      intro dicts
      simp only [List.foldl_cons, ih, length_expandStep, expandSizes]
      by_cases h : isExpanded p
      · simp [h, List.filter_cons, Nat.mul_assoc]
      · simp [h, List.filter_cons]

theorem length_expand_eq_prod (ps : List Param) :
    (expand_parameters ps).length = (expandSizes ps).prod := by
  unfold expand_parameters
  rw [length_foldl_expandStep]
  simp

theorem length_expand_no_expanded (ps : List Param)
    (hall : ∀ p ∈ ps, isExpanded p = false) : (expand_parameters ps).length = 1 := by
  have hfil : ps.filter isExpanded = [] := by
    rw [List.filter_eq_nil_iff]
    intro p hp
    simp [hall p hp]
  rw [length_expand_eq_prod]
  simp [expandSizes, hfil]

theorem getVal_setKey_self {α : Type} (d : List (String × α)) (k : String) (v : α) :
    getVal (setKey d k v) k = some v := by
  induction d with
  | nil => simp [setKey, getVal]
  | cons kv rest ih =>
      by_cases h : kv.1 = k
      · simp [setKey, h, getVal]
      · simp [setKey, h, getVal, ih]

theorem getVal_setKey_ne {α : Type} (d : List (String × α)) (k k' : String) (v : α)
    (h : k ≠ k') : getVal (setKey d k v) k' = getVal d k' := by
  induction d with
  | nil => simp [setKey, getVal, h]
  | cons kv rest ih =>
      by_cases hk : kv.1 = k
      · simp [setKey, hk, getVal, h]
      · simp only [setKey, hk, if_false, getVal]
        by_cases hk' : kv.1 = k'
        · simp [hk']
        · simp [hk', ih]

theorem getD_mem_of_lt {α : Type} (l : List α) (j : Nat) (dflt : α)
    (h : j < l.length) : l.getD j dflt ∈ l := by
  induction l generalizing j with
  | nil => simp at h
  | cons a rest ih =>
      cases j with
      | zero => simp [List.getD]
      | succ j' =>
          have : j' < rest.length := by simpa using h
          simpa [List.getD] using Or.inr (by simpa [List.getD] using ih j' this)

theorem replicateEach_zero {α : Type} (ds : List α) : replicateEach 0 ds = [] := by
  induction ds with
  | nil => rfl
  | cons d rest ih => simp [replicateEach, ih]

theorem mem_replicateEach {α : Type} (k : Nat) (ds : List α) (d : α)
    (h : d ∈ replicateEach k ds) : d ∈ ds := by
  induction ds with
  | nil => simp [replicateEach] at h
  | cons a rest ih =>
      simp only [replicateEach, List.mem_append] at h
      rcases h with h | h
      · simp [List.eq_of_mem_replicate h]
      · simp [ih h]

theorem mem_assignCycle (name : String) (elems : List PyVal) (d' : Dict) :
    ∀ (i : Nat) (ds : List Dict), d' ∈ assignCycle name elems i ds →
      ∃ d ∈ ds, ∃ j : Nat,
        d' = setKey d name (elems.getD (j % elems.length) (PyVal.atom PyAtom.none)) := by
  intro i ds
  induction ds generalizing i with
  | nil => intro h; simp [assignCycle] at h
  | cons d rest ih =>
      intro h
      simp only [assignCycle, List.mem_cons] at h
      rcases h with h | h
      · exact ⟨d, by simp, i, h⟩
      · rcases ih (i + 1) h with ⟨d0, hd0, j, hj⟩
        exact ⟨d0, by simp [hd0], j, hj⟩

theorem mem_expandStep (p : Param) (dicts : List Dict) (d' : Dict)
    (h : d' ∈ expandStep dicts p) :
    ∃ d ∈ dicts, ∃ v : PyVal, d' = setKey d p.name v
      ∧ (isExpanded p = false → v = p.value)
      ∧ (isExpanded p = true → v ∈ seqElems p.value) := by
  unfold expandStep at h
  by_cases hexp : isExpanded p
  · rw [if_pos hexp] at h
    by_cases hnil : seqElems p.value = []
    · rw [hnil] at h
      simp [replicateEach_zero, assignCycle] at h
    · rcases mem_assignCycle p.name (seqElems p.value) d' 0 _ h with ⟨d, hd, j, hj⟩
      have hlen : 0 < (seqElems p.value).length := List.length_pos.mpr hnil
      have hmem : (seqElems p.value).getD (j % (seqElems p.value).length)
          (PyVal.atom PyAtom.none) ∈ seqElems p.value :=
        getD_mem_of_lt _ _ _ (Nat.mod_lt _ hlen)
      exact ⟨d, mem_replicateEach _ _ _ hd, _, hj,
        fun hc => absurd hexp (by simp [hc]), fun _ => hmem⟩
  · rw [if_neg hexp] at h
    rcases List.mem_map.mp h with ⟨d, hd, hset⟩
    exact ⟨d, hd, p.value, hset.symm, fun _ => rfl,
      fun hc => absurd hc (by simpa using hexp)⟩

theorem getVal_foldl_avoid (n : String) (ps : List Param)
    (h : ∀ p ∈ ps, p.name ≠ n) :
    ∀ (dicts : List Dict), ∀ d' ∈ ps.foldl expandStep dicts,
      ∃ d ∈ dicts, getVal d' n = getVal d n := by
  induction ps with
  | nil => intro dicts d' hd'; exact ⟨d', hd', rfl⟩
  | cons q rest ih =>
      intro dicts d' hd'
      have hq : q.name ≠ n := h q (by simp)
      have hrest : ∀ p ∈ rest, p.name ≠ n := fun p hp => h p (by simp [hp])
      rw [List.foldl_cons] at hd'
      rcases ih hrest (expandStep dicts q) d' hd' with ⟨d0, hd0, heq⟩
      rcases mem_expandStep q dicts d0 hd0 with ⟨d, hd, v, hset, -, -⟩
      exact ⟨d, hd, by rw [heq, hset, getVal_setKey_ne _ _ _ _ hq]⟩

theorem bindsFrom_expandStep (p : Param) (dicts : List Dict) :
    ∀ d' ∈ expandStep dicts p, BindsFrom p d' := by
  intro d' hd'
  rcases mem_expandStep p dicts d' hd' with ⟨d, -, v, hset, hne, hev⟩
  constructor
  · intro hexp
    exact ⟨v, hev hexp, by rw [hset, getVal_setKey_self]⟩
  · intro hexp
    rw [hset, hne hexp, getVal_setKey_self]

theorem lastWith_eq_none (ps : List Param) (n : String)
    (h : ∀ p ∈ ps, p.name ≠ n) : lastWith ps n = Option.none := by
  induction ps with
  | nil => rfl
  | cons q rest ih =>
      have hrest : ∀ p ∈ rest, p.name ≠ n := fun p hp => h p (by simp [hp])
      simp [lastWith, ih hrest, h q (by simp)]

theorem lastWith_none_imp (ps : List Param) (n : String)
    (h : lastWith ps n = Option.none) : ∀ p ∈ ps, p.name ≠ n := by
  induction ps with
  | nil => simp
  | cons q rest ih =>
      intro p hp
      unfold lastWith at h
      cases hrest : lastWith rest n with
      | some p' => rw [hrest] at h; simp at h
      | none =>
          rw [hrest] at h
          by_cases hq : q.name = n
          · rw [if_pos hq] at h; simp at h
          · rcases List.mem_cons.mp hp with rfl | hp'
            · exact hq
            · exact ih hrest p hp'

theorem bindsFrom_foldl (ps : List Param) (n : String) (p : Param) :
    ∀ dicts : List Dict, lastWith ps n = some p →
      ∀ d ∈ ps.foldl expandStep dicts, BindsFrom p d := by
  induction ps with
  | nil => intro dicts h; simp [lastWith] at h
  | cons q rest ih =>
      intro dicts h d hd
      rw [List.foldl_cons] at hd
      unfold lastWith at h
      cases hrest : lastWith rest n with
      | some p' =>
          rw [hrest] at h
          have : p' = p := by simpa using h
          exact ih (expandStep dicts q) (this ▸ hrest) d hd
      | none =>
          rw [hrest] at h
          by_cases hq : q.name = n
          · rw [if_pos hq] at h
            have hpq : q = p := by simpa using h
            rcases getVal_foldl_avoid n rest (lastWith_none_imp rest n hrest)
              (expandStep dicts q) d hd with ⟨d0, hd0, heq⟩
            have hb : BindsFrom q d0 := bindsFrom_expandStep q dicts d0 hd0
            rw [← hq] at heq
            subst hpq
            constructor
            · intro hexp
              rcases hb.1 hexp with ⟨v, hv, hgv⟩
              exact ⟨v, hv, by rw [heq, hgv]⟩
            · intro hexp
              rw [heq, hb.2 hexp]
          · rw [if_neg hq] at h
            simp at h

theorem lastWith_of_pairwise (ps : List Param)
    (hnd : ps.Pairwise (fun a b => a.name ≠ b.name)) (p : Param) (hp : p ∈ ps) :
    lastWith ps p.name = some p := by
  induction ps with
  | nil => simp at hp
  | cons q rest ih =>
      rcases List.pairwise_cons.mp hnd with ⟨h1, h2⟩
      rcases List.mem_cons.mp hp with rfl | hp'
      · have : lastWith rest p.name = Option.none :=
          lastWith_eq_none rest p.name (fun r hr => fun hc => h1 r hr hc.symm)
        simp [lastWith, this]
      · simp [lastWith, ih h2 hp']

/-- C1: for every sequence of Parameters, `expand_parameters` returns a list
whose length is the product of the lengths of the value sequences of all
expandable Parameters (those passing the finite-ordered-non-string-sequence
test); in particular the empty input yields a single empty map, no expandable
Parameter yields length 1, and an expandable Parameter with an empty sequence
yields length 0. -/
theorem expand_parameters_count (ps : List Param) :
    (expand_parameters ps).length = (expandSizes ps).prod
    ∧ expand_parameters ([] : List Param) = [[]]
    ∧ ((∀ p ∈ ps, isExpanded p = false) → (expand_parameters ps).length = 1)
    ∧ (∀ p ∈ ps, isExpanded p = true → (seqElems p.value).length = 0 →
        (expand_parameters ps).length = 0) := by
  have hmain := length_expand_eq_prod ps
  refine ⟨hmain, rfl, length_expand_no_expanded ps, ?_⟩
  · intro p hp hexp hlen
    rw [hmain]
    apply List.prod_eq_zero
    have hpf : p ∈ ps.filter isExpanded := List.mem_filter.mpr ⟨hp, hexp⟩
    exact hlen ▸ List.mem_map.mpr ⟨p, hpf, rfl⟩

theorem expand_parameters_count_witness :
    (∀ p ∈ psW1, isExpanded p = false) ∧ (expand_parameters psW1).length = 1 :=
  ⟨by decide, (expand_parameters_count psW1).2.2.1 (by decide)⟩

/-- C2 counterexample: on the input `[{a, [1,2], expandable}, {c, [10,20,30],
expandable}]` the claimed output layout (`a` cycling `[1,2,1,2,1,2]` against
`c = [10,10,20,20,30,30]`) does not hold of `expand_parameters`. -/
theorem expand_order_counterexample :
    ¬ ((expand_parameters psC2).map (fun d => getVal d "a") =
          ([.atom (.int 1), .atom (.int 2), .atom (.int 1),
            .atom (.int 2), .atom (.int 1), .atom (.int 2)] : List PyVal).map some
        ∧ (expand_parameters psC2).map (fun d => getVal d "c") =
          ([.atom (.int 10), .atom (.int 10), .atom (.int 20),
            .atom (.int 20), .atom (.int 30), .atom (.int 30)] : List PyVal).map some) := by
  decide

/-- C2 amended: `expand_parameters` on that input returns exactly 6 maps, in
which the values of `a` are, in output order, `[1,1,1,2,2,2]` (the earlier
parameter varies slower) and the values of `c` are `[10,20,30,10,20,30]`
(the later parameter varies faster, cycling). -/
theorem expand_order_amended :
    (expand_parameters psC2).length = 6
    ∧ (expand_parameters psC2).map (fun d => getVal d "a") =
        ([.atom (.int 1), .atom (.int 1), .atom (.int 1),
          .atom (.int 2), .atom (.int 2), .atom (.int 2)] : List PyVal).map some
    ∧ (expand_parameters psC2).map (fun d => getVal d "c") =
        ([.atom (.int 10), .atom (.int 20), .atom (.int 30),
          .atom (.int 10), .atom (.int 20), .atom (.int 30)] : List PyVal).map some := by
  decide

/-- C9: when Parameters share a name, every assignment map returned by
`expand_parameters` binds that name to a value coming from the
last-processed Parameter with that name (its broadcast value, or one of its
sequence elements when it is expanded): last write wins per map. -/
theorem duplicate_name_last_wins (ps : List Param) (n : String) (p : Param)
    (h : lastWith ps n = some p) : ∀ d ∈ expand_parameters ps, BindsFrom p d :=
  bindsFrom_foldl ps n p [[]] h

theorem duplicate_name_last_wins_witness :
    lastWith psW9 "x" = some pW9
    ∧ ∀ d ∈ expand_parameters psW9, BindsFrom pW9 d :=
  ⟨by decide, duplicate_name_last_wins psW9 "x" pW9 (by decide)⟩

/-- C4: a Parameter that is non-expandable, or flagged expandable but whose
value fails the finite-ordered-non-string-sequence test (a scalar, a string,
or a generator without a length), has its value broadcast unchanged into
every returned assignment map; a list of non-expandable Parameters with
distinct names yields exactly one map with all the original bindings. -/
theorem nonexpandable_broadcast (ps : List Param)
    (hnd : ps.Pairwise (fun a b => a.name ≠ b.name)) :
    (∀ p ∈ ps, isExpanded p = false →
        ∀ d ∈ expand_parameters ps, getVal d p.name = some p.value)
    ∧ ((∀ p ∈ ps, isExpanded p = false) → (expand_parameters ps).length = 1)
    ∧ (∀ (name : String) (s : String), isExpanded ⟨name, .str s, true⟩ = false)
    ∧ (∀ (name : String) (xs : List PyAtom), isExpanded ⟨name, .gen xs, true⟩ = false)
    ∧ (∀ (name : String) (a : PyAtom), isExpanded ⟨name, .atom a, true⟩ = false) := by
  refine ⟨?_, length_expand_no_expanded ps, fun _ _ => rfl, fun _ _ => rfl, fun _ _ => rfl⟩
  intro p hp hexp d hd
  have hlast : lastWith ps p.name = some p := lastWith_of_pairwise ps hnd p hp
  exact (bindsFrom_foldl ps p.name p [[]] hlast d hd).2 hexp

theorem nonexpandable_broadcast_witness :
    psW1.Pairwise (fun a b => a.name ≠ b.name)
    ∧ (expand_parameters psW1).length = 1 :=
  ⟨by decide, (nonexpandable_broadcast psW1 (by decide)).2.1 (by decide)⟩

theorem copyEntries_ctr_le (es : List (String × Obj)) :
    ∀ (ctr : Nat) (memo : List (Nat × Nat)), ctr ≤ (copyEntries ctr memo es).2.1 := by
  induction es with
  | nil => intro ctr memo; simp [copyEntries]
  | cons e rest ih =>
      intro ctr memo
      obtain ⟨k, o⟩ := e
      cases h : List.lookup o.oid memo with
      | some nid => simpa [copyEntries, h] using ih ctr memo
      | none =>
          simpa [copyEntries, h] using
            Nat.le_trans (Nat.le_succ ctr) (ih (ctr + 1) ((o.oid, ctr) :: memo))

theorem deepcopyDict_did (ctr : Nat) (d : IDict) : (deepcopyDict ctr d).1.did = ctr := rfl

theorem deepcopyDict_lt (ctr : Nat) (d : IDict) : ctr < (deepcopyDict ctr d).2 :=
  Nat.lt_of_lt_of_le (Nat.lt_succ_self ctr) (copyEntries_ctr_le d.entries (ctr + 1) [])

theorem copiesOf_ids (k : Nat) : ∀ (ctr : Nat) (d : IDict),
    ctr ≤ (copiesOf k ctr d).2
    ∧ (∀ x ∈ (copiesOf k ctr d).1, ctr ≤ x.did ∧ x.did < (copiesOf k ctr d).2)
    ∧ ((copiesOf k ctr d).1.map IDict.did).Pairwise (· ≠ ·) := by
  induction k with
  | zero =>
      intro ctr d
      refine ⟨Nat.le_refl _, ?_, ?_⟩ <;> simp [copiesOf]
  | succ k ih =>
      intro ctr d
      have hlt := deepcopyDict_lt ctr d
      obtain ⟨hle, hbnd, hpw⟩ := ih (deepcopyDict ctr d).2 d
      refine ⟨Nat.le_trans (Nat.le_of_lt hlt) hle, ?_, ?_⟩
      · intro x hx
        simp only [copiesOf, List.mem_cons] at hx
        rcases hx with rfl | hx
        · exact ⟨Nat.le_of_eq (deepcopyDict_did ctr d).symm,
            by rw [deepcopyDict_did]; exact Nat.lt_of_lt_of_le hlt hle⟩
        · rcases hbnd x hx with ⟨h1, h2⟩
          exact ⟨Nat.le_trans (Nat.le_of_lt hlt) h1, h2⟩
      · simp only [copiesOf, List.map_cons]
        refine List.pairwise_cons.mpr ⟨?_, hpw⟩
        intro a ha
        rcases List.mem_map.mp ha with ⟨x, hx, hxa⟩
        rcases hbnd x hx with ⟨h1, -⟩
        rw [deepcopyDict_did]
        exact Nat.ne_of_lt (Nat.lt_of_lt_of_le hlt (hxa ▸ h1))

theorem replicateCopy_ids (k : Nat) : ∀ (ctr : Nat) (ds : List IDict),
    ctr ≤ (replicateCopy k ctr ds).2
    ∧ (∀ x ∈ (replicateCopy k ctr ds).1, ctr ≤ x.did ∧ x.did < (replicateCopy k ctr ds).2)
    ∧ (((replicateCopy k ctr ds).1.map IDict.did).Pairwise (· ≠ ·)) := by
  intro ctr ds
  induction ds generalizing ctr with
  | nil =>
      refine ⟨Nat.le_refl _, ?_, ?_⟩ <;> simp [replicateCopy]
  | cons d rest ih =>
      obtain ⟨hle1, hbnd1, hpw1⟩ := copiesOf_ids k ctr d
      obtain ⟨hle2, hbnd2, hpw2⟩ := ih (copiesOf k ctr d).2
      refine ⟨Nat.le_trans hle1 hle2, ?_, ?_⟩
      · intro x hx
        simp only [replicateCopy, List.mem_append] at hx
        rcases hx with hx | hx
        · rcases hbnd1 x hx with ⟨h1, h2⟩
          exact ⟨h1, Nat.lt_of_lt_of_le h2 hle2⟩
        · rcases hbnd2 x hx with ⟨h1, h2⟩
          exact ⟨Nat.le_trans hle1 h1, h2⟩
      · simp only [replicateCopy, List.map_append]
        rw [List.pairwise_append]
        refine ⟨hpw1, hpw2, ?_⟩
        intro a ha b hb
        rcases List.mem_map.mp ha with ⟨x, hx, hxa⟩
        rcases List.mem_map.mp hb with ⟨y, hy, hyb⟩
        rcases hbnd1 x hx with ⟨-, h2⟩
        rcases hbnd2 y hy with ⟨h3, -⟩
        exact hxa ▸ hyb ▸ Nat.ne_of_lt (Nat.lt_of_lt_of_le h2 h3)

theorem assignCycleI_dids (name : String) (elems : List Obj) :
    ∀ (i : Nat) (ds : List IDict),
      (assignCycleI name elems i ds).map IDict.did = ds.map IDict.did := by
  intro i ds
  induction ds generalizing i with
  | nil => rfl
  | cons d rest ih => simp [assignCycleI, ih]

theorem expandStepI_idsOK (st : List IDict × Nat) (p : IParam) (h : IdsOK st) :
    IdsOK (expandStepI st p) := by
  obtain ⟨hbnd, hpw⟩ := h
  unfold expandStepI
  cases hexp : p.expandable with
  | true =>
      cases helems : p.elems with
      | some elems =>
          obtain ⟨-, hbnd2, hpw2⟩ := replicateCopy_ids elems.length st.2 st.1
          constructor
          · intro d hd
            have hmem : d.did ∈ (assignCycleI p.name elems 0
                (replicateCopy elems.length st.2 st.1).1).map IDict.did :=
              List.mem_map_of_mem IDict.did hd
            rw [assignCycleI_dids] at hmem
            rcases List.mem_map.mp hmem with ⟨x, hx, hxd⟩
            exact hxd ▸ (hbnd2 x hx).2
          · rw [assignCycleI_dids]
            exact hpw2
      | none =>
          constructor
          · intro d hd
            rcases List.mem_map.mp hd with ⟨d0, hd0, rfl⟩
            exact hbnd d0 hd0
          · simpa [List.map_map, Function.comp] using hpw
  | false =>
      constructor
      · intro d hd
        rcases List.mem_map.mp hd with ⟨d0, hd0, rfl⟩
        exact hbnd d0 hd0
      · simpa [List.map_map, Function.comp] using hpw

theorem foldl_expandStepI_idsOK (ps : List IParam) :
    ∀ st : List IDict × Nat, IdsOK st → IdsOK (ps.foldl expandStepI st) := by
  induction ps with
  | nil => intro st h; exact h
  | cons p rest ih => intro st h; exact ih _ (expandStepI_idsOK st p h)

/-- C3 counterexample: on the input `psC3`, `expand_parameters` returns two
distinct assignment maps that bind key `a` to the very same value object
(identity 21), because `itertools.cycle` hands out the sequence elements
themselves; mutating that object in place changes the other map's value for
`a` as well.  This refutes the claimed pairwise independence of the returned
maps. -/
theorem expand_aliasing_counterexample :
    (expand_parameters_ids psC3 100).1.length = 2
    ∧ ((expand_parameters_ids psC3 100).1.getD 0 ⟨0, []⟩).did ≠
        ((expand_parameters_ids psC3 100).1.getD 1 ⟨0, []⟩).did
    ∧ getVal ((expand_parameters_ids psC3 100).1.getD 0 ⟨0, []⟩).entries "a" =
        some ⟨21, 7⟩
    ∧ getVal ((expand_parameters_ids psC3 100).1.getD 1 ⟨0, []⟩).entries "a" =
        some ⟨21, 7⟩
    ∧ sharesValue ((expand_parameters_ids psC3 100).1.getD 0 ⟨0, []⟩)
        ((expand_parameters_ids psC3 100).1.getD 1 ⟨0, []⟩) = true
    ∧ getVal ((mutateVal (expand_parameters_ids psC3 100).1 21 99).getD 1 ⟨0, []⟩).entries "a"
        ≠ getVal ((expand_parameters_ids psC3 100).1.getD 1 ⟨0, []⟩).entries "a" := by
  decide

/-- C3 amended: the returned assignment maps are pairwise distinct dict
objects, so rebinding a key in one returned map (`d[k] = v`) never changes
any other returned map; but value objects may be shared across maps (the
same sequence element is cycled into several replicas, and a broadcast value
is the identical object in every map), so in-place mutation of a value
object can be observed in sibling maps. -/
theorem expand_maps_dict_independence (ps : List IParam) (ctr : Nat) :
    (((expand_parameters_ids ps ctr).1.map IDict.did).Pairwise (· ≠ ·))
    ∧ (∀ i j : Nat, i < (expand_parameters_ids ps ctr).1.length →
        j < (expand_parameters_ids ps ctr).1.length → i ≠ j →
        ∀ (k : String) (v : Obj),
          (rebindKey (expand_parameters_ids ps ctr).1
              (((expand_parameters_ids ps ctr).1.getD i ⟨0, []⟩).did) k v).getD j ⟨0, []⟩
            = (expand_parameters_ids ps ctr).1.getD j ⟨0, []⟩) := by
  have hOK : IdsOK (expand_parameters_ids ps ctr) := by
    apply foldl_expandStepI_idsOK
    constructor
    · intro d hd
      simp only [List.mem_singleton] at hd
      simp [hd]
    · simp
  refine ⟨hOK.2, ?_⟩
  intro i j hi hj hij k v
  have hmaplen : ((expand_parameters_ids ps ctr).1.map IDict.did).length =
      (expand_parameters_ids ps ctr).1.length := List.length_map _ _
  have hdne : ((expand_parameters_ids ps ctr).1.getD j ⟨0, []⟩).did ≠
      ((expand_parameters_ids ps ctr).1.getD i ⟨0, []⟩).did := by
    rw [List.getD_eq_getElem _ _ hi, List.getD_eq_getElem _ _ hj]
    have hpw := hOK.2
    rw [List.pairwise_iff_getElem] at hpw
    rcases Nat.lt_or_ge i j with hlt | hge
    · have := hpw i j (hmaplen ▸ hi) (hmaplen ▸ hj) hlt
      simp only [List.getElem_map] at this
      exact fun hc => this hc.symm
    · have hjlt : j < i := Nat.lt_of_le_of_ne hge (fun hc => hij hc.symm)
      have := hpw j i (hmaplen ▸ hj) (hmaplen ▸ hi) hjlt
      simp only [List.getElem_map] at this
      exact this
  have hlen : (rebindKey (expand_parameters_ids ps ctr).1
      (((expand_parameters_ids ps ctr).1.getD i ⟨0, []⟩).did) k v).length =
      (expand_parameters_ids ps ctr).1.length := List.length_map _ _
  rw [List.getD_eq_getElem _ _ (hlen ▸ hj), List.getD_eq_getElem _ _ hj]
  unfold rebindKey
  rw [List.getElem_map]
  rw [if_neg (by rw [← List.getD_eq_getElem _ ⟨0, []⟩ hj]; exact hdne)]

theorem expand_maps_dict_independence_witness :
    (0 : Nat) < (expand_parameters_ids psC3 100).1.length
    ∧ (1 : Nat) < (expand_parameters_ids psC3 100).1.length
    ∧ (0 : Nat) ≠ 1
    ∧ (rebindKey (expand_parameters_ids psC3 100).1
          (((expand_parameters_ids psC3 100).1.getD 0 ⟨0, []⟩).did) "a" ⟨99, 5⟩).getD 1 ⟨0, []⟩
        = (expand_parameters_ids psC3 100).1.getD 1 ⟨0, []⟩ :=
  ⟨by decide, by decide, by decide,
    (expand_maps_dict_independence psC3 100).2 0 1 (by decide) (by decide) (by decide)
      "a" ⟨99, 5⟩⟩

/-- C5 counterexample: with 5 Specifications `[0,1,2,3,4]` where index 2
raises during serialization, `save_specifications` does not still produce
files for indices 0, 1, 3, 4: only 0 and 1 are saved before the exception
propagates out of the unguarded loop, and no per-item failure report is
collected. -/
theorem save_specifications_counterexample :
    (save_specifications saveW [0, 1, 2, 3, 4]).1 ≠ [0, 1, 3, 4]
    ∧ save_specifications saveW [0, 1, 2, 3, 4] = ([0, 1], some 2) := by
  constructor
  · decide
  · decide

/-- C5 amended: when a Specification's save raises, the exception
propagates immediately out of `save_specifications`: exactly the
Specifications before the first failing one have their files produced,
every later Specification is not serialized, and no per-item failure report
is produced — the only failure information is the propagated exception
itself. -/
theorem save_specifications_first_error {σ ε : Type} (save : σ → Except ε Unit)
    (pre : List σ) (s : σ) (post : List σ) (e : ε)
    (hok : ∀ x ∈ pre, save x = Except.ok ())
    (herr : save s = Except.error e) :
    save_specifications save (pre ++ s :: post) = (pre, some e) := by
  induction pre with
  | nil => simp [save_specifications, herr]
  | cons a rest ih =>
      have ha : save a = Except.ok () := hok a (by simp)
      have hrest : ∀ x ∈ rest, save x = Except.ok () := fun x hx => hok x (by simp [hx])
      simp [save_specifications, ha, ih hrest]

theorem save_specifications_first_error_witness :
    (∀ x ∈ [0, 1], saveW x = Except.ok ())
    ∧ saveW 2 = Except.error 2
    ∧ save_specifications saveW ([0, 1] ++ 2 :: [3, 4]) = ([0, 1], some 2) :=
  ⟨by intro x hx; fin_cases hx <;> rfl, rfl,
    save_specifications_first_error saveW [0, 1] 2 [3, 4] 2
      (by intro x hx; fin_cases hx <;> rfl) rfl⟩

/-- C6: when the Confirmation Gate (`specification_check`) receives a
negative answer, the job-creation pipeline aborts before any destructive
filesystem action: its action trace is empty, so no directory is created or
removed and no file is written after the rejection. -/
theorem gate_rejection_no_fs_actions {α : Type} (job_dir : String)
    (specifications : List α) (specFiles : List String) (a : PipelineAnswers)
    (h : a.spec_check_answer = false) :
    create_job_pipeline job_dir specifications specFiles a = [] := by
  simp [create_job_pipeline, specification_check, h]

theorem gate_rejection_no_fs_actions_witness :
    answersW.spec_check_answer = false
    ∧ create_job_pipeline "job" ([] : List Nat) [] answersW = [] :=
  ⟨rfl, gate_rejection_no_fs_actions "job" [] [] answersW rfl⟩

/-- C7: the obtain step returns the persisted processor whenever its file
exists and loads; it constructs the fresh processor only on file-not-found;
and any other deserialization failure propagates as an error instead of
being silently replaced by a fresh processor. -/
theorem obtain_job_processor_spec {π ε : Type} (p fresh : π) (e : ε) :
    obtain_job_processor (LoadOutcome.found p : LoadOutcome π ε) fresh = Except.ok p
    ∧ obtain_job_processor (LoadOutcome.fileNotFound : LoadOutcome π ε) fresh =
        Except.ok fresh
    ∧ obtain_job_processor (LoadOutcome.otherError e : LoadOutcome π ε) fresh =
        Except.error e :=
  ⟨rfl, rfl, rfl⟩

/-- C8: `write_job_info_to_file` followed by `load_job_info_from_file` on
the same job directory returns the record written, and both operations
address the one fixed path `info.pkl` inside the job directory. -/
theorem job_info_roundtrip {α : Type} (job_info : α) (job_dir : String)
    (fs : List (String × α)) :
    load_job_info_from_file job_dir (write_job_info_to_file job_info job_dir fs) =
        some job_info
    ∧ job_info_path job_dir = job_dir ++ "/info.pkl"
    ∧ write_job_info_to_file job_info job_dir fs =
        setKey fs (job_info_path job_dir) job_info
    ∧ load_job_info_from_file job_dir fs = getVal fs (job_info_path job_dir) :=
  ⟨getVal_setKey_self fs (job_info_path job_dir) job_info, rfl, rfl, rfl⟩

/-- C10: `specification_check` is total in the size of its input: called
with fewer Specifications than the sample size `check` (including an empty
collection), the displayed sample is the whole list (the slice `[0:check]`
never over-indexes), the reported total is the exact count, and the
confirmation question is still asked. -/
theorem specification_check_total {α : Type} (specifications : List α)
    (check : Nat) (answer : Bool) (h : specifications.length < check) :
    (specification_check specifications check answer).shown = specifications
    ∧ (specification_check specifications check answer).reported_total =
        specifications.length
    ∧ (specification_check specifications check answer).asked = true :=
  ⟨List.take_of_length_le (Nat.le_of_lt h), rfl, rfl⟩

theorem specification_check_total_witness :
    ([] : List Nat).length < 3
    ∧ (specification_check ([] : List Nat) 3 true).shown = []
    ∧ (specification_check ([] : List Nat) 3 true).asked = true :=
  ⟨by decide, (specification_check_total [] 3 true (by decide)).1,
    (specification_check_total [] 3 true (by decide)).2.2⟩

end Simulacra
